import Mathlib

/-
Verification of the catalog synchronization engine of gale
(src/src-tauri/src/thunderstore/fetch.rs): the streaming JSON-array extractor
fetch_and_parse_packages, the multi-source fetch fetch_packages with its
merge/replace write-back over an IndexMap, and the refresh scheduler
fetch_package_loop / loop_iter.

Embedding conventions:
- Bytes are Nat lists (each below 256; nothing here overflows a byte).
- Rust String buffers are kept as their UTF-8 bytes: str::find and
  replace_range operate on byte offsets, so the delimiter scan is byte-level.
- core::str::from_utf8 is embedded as an executable RFC 3629 validator.
- Network responses are oracles: an Except value that is either the
  transport/status error propagated by the question-mark operator or the
  finite list of body chunks.
- Recursion is structural or fuel-driven with provably adequate fuel, so every
  definition evaluates inside the kernel on concrete inputs.
- Logging, timing, the status_update event and lock acquisition order carry no
  observable state for the claims and are dropped; the mutex-guarded state is
  the Thunderstore structure, mutated atomically at the code's store points.
- The exclusion list (excluded_packages.txt) and the PackageListing
  deserializer live outside src/; the former is a parameter, the latter is
  modelled from the spec (see parsePackage).
-/

/-- Raw bytes, as used by the Rust code's byte buffers; a machine byte is a Nat below 256,
and no arithmetic here ever overflows that range. -/
abbrev Bytes := List Nat

/-- UTF-8 continuation byte, 0x80 to 0xBF. -/
def isCont (b : Nat) : Bool := decide (128 ≤ b ∧ b ≤ 191)

/-- Byte length of a UTF-8 sequence determined by its leading byte, per RFC 3629
(the table enforced by Rust core::str::from_utf8): 0x00-0x7F one byte, 0xC2-0xDF two,
0xE0-0xEF three, 0xF0-0xF4 four; anything else can never lead a character. -/
def charLenOf (b : Nat) : Option Nat :=
  if b ≤ 127 then some 1
  else if 194 ≤ b ∧ b ≤ 223 then some 2
  else if 224 ≤ b ∧ b ≤ 239 then some 3
  else if 240 ≤ b ∧ b ≤ 244 then some 4
  else none

/-- Valid second byte given the leading byte: RFC 3629 narrows the second byte's range
for leading bytes 0xE0, 0xED, 0xF0 and 0xF4; other multi-byte leads take any continuation. -/
def contOk (b b1 : Nat) : Bool :=
  if b = 224 then decide (160 ≤ b1 ∧ b1 ≤ 191)
  else if b = 237 then decide (128 ≤ b1 ∧ b1 ≤ 159)
  else if b = 240 then decide (144 ≤ b1 ∧ b1 ≤ 191)
  else if b = 244 then decide (128 ≤ b1 ∧ b1 ≤ 143)
  else isCont b1

/-- Checks the continuation bytes of one multi-byte character of length k at the front of
rest: the first byte via contOk, the remaining k - 2 via isCont. -/
def contBytesOk (b : Nat) (rest : Bytes) (k : Nat) : Bool :=
  match rest with
  | [] => false
  | b1 :: rest1 => contOk b b1 && (rest1.take (k - 2)).all isCont

/-- Length of the complete valid UTF-8 character at the front of the buffer, or none if the
buffer is empty, starts with an invalid lead, or is truncated mid-character. -/
def utf8CharLen : Bytes → Option Nat
  | [] => none
  | b :: rest =>
    match charLenOf b with
    | none => none
    | some k =>
      if k = 1 then some 1
      else if rest.length + 1 < k then none
      else if contBytesOk b rest k then some k else none

/-- Fuel-driven UTF-8 validation loop; one unit of fuel per character consumed.  Fuel equal
to the byte length always suffices (each character takes at least one byte). -/
def utf8ValidAux : Nat → Bytes → Bool
  | 0, bs => bs.isEmpty
  | fuel + 1, bs =>
    match utf8CharLen bs with
    | none => bs.isEmpty
    | some k => utf8ValidAux fuel (bs.drop k)

/-- Embedding of core::str::from_utf8's validity check (fetch.rs line 153): true iff the
byte buffer is well-formed UTF-8 in its entirety. -/
def utf8Valid (bs : Bytes) : Bool := utf8ValidAux bs.length bs

/-- The record delimiter the extractor scans for (fetch.rs line 160): the four ASCII bytes
of the text closing-brace, bracket, closing-brace, comma. -/
def delim : Bytes := [125, 93, 125, 44]

/-- Byte index of the first occurrence of the delimiter in the buffer, as Rust
str::find returns it (fetch.rs line 160), or none. -/
def findDelim : Bytes → Option Nat
  | [] => none
  | b :: rest =>
    if List.isPrefixOf delim (b :: rest) then some 0
    else (findDelim rest).map (fun i => i + 1)

/-- Fuel-driven version of the extractor's inner while loop (fetch.rs lines 160-172):
while the delimiter occurs at index i, the record text is the prefix of length i + 3
(split_at(index + 3)) and the first i + 4 bytes are removed (replace_range(..index + 4)).
Returns the record texts in extraction order and the leftover buffer.  One unit of fuel
per record; each record consumes at least four bytes, so fuel = buffer length suffices. -/
def drainAux : Nat → Bytes → List Bytes × Bytes
  | 0, sb => ([], sb)
  | fuel + 1, sb =>
    match findDelim sb with
    | none => ([], sb)
    | some i =>
      let rec0 := drainAux fuel (sb.drop (i + 4))
      (sb.take (i + 3) :: rec0.1, rec0.2)

/-- The extractor's inner while loop at adequate fuel. -/
def drain (sb : Bytes) : List Bytes × Bytes := drainAux sb.length sb

/-- State of fetch_and_parse_packages's streaming loop (fetch.rs lines 147-149):
bb is byte_buffer (bytes not yet decoded), sb is str_buffer (decoded text not yet consumed,
kept as its UTF-8 bytes, which is exactly what Rust String stores and what str::find
indexes), recs is the list of record texts extracted so far, in order.  The code hands each
extracted text straight to serde and the exclusion filter; the model keeps the texts and
folds the identical per-record handling over them afterwards (buildCatalog), which performs
the same insertions in the same order. -/
structure ExtState where
  bb : Bytes
  sb : Bytes
  recs : List Bytes
deriving DecidableEq

/-- Both buffers start empty (fetch.rs lines 147-148). -/
def initExtState : ExtState := ⟨[], [], []⟩

/-- One iteration of the chunk loop (fetch.rs lines 151-173): append the chunk to
byte_buffer; if the whole accumulated buffer is valid UTF-8, push it onto str_buffer, clear
byte_buffer and drain complete records; otherwise keep everything and wait for more bytes
(the let-else continue at lines 153-155). -/
def processChunk (s : ExtState) (c : Bytes) : ExtState :=
  let bb := s.bb ++ c
  if utf8Valid bb then
    let d := drain (s.sb ++ bb)
    ⟨[], d.2, s.recs ++ d.1⟩
  else
    ⟨bb, s.sb, s.recs⟩

/-- One iteration of the chunk loop (fetch.rs lines 151-173): append the chunk to
byte_buffer; if the whole accumulated buffer is valid UTF-8, push it onto str_buffer, clear
byte_buffer and drain complete records; otherwise keep everything and wait for more bytes
(the let-else continue at lines 153-155). -/
def processChunks (cs : List Bytes) : ExtState := cs.foldl processChunk initExtState

/-- Loop invariant of the extractor: some already-decoded valid prefix D of the bytes
received so far accounts for the records and text leftover via drain, the pending bytes are
the rest, and pending bytes are only ever retained after a failed validation. -/
def ExtInv (total : Bytes) (s : ExtState) : Prop :=
  ∃ D : Bytes, D ++ s.bb = total ∧ utf8Valid D = true ∧
    s.recs = (drain D).1 ∧ s.sb = (drain D).2 ∧ (s.bb = [] ∨ utf8Valid s.bb = false)

/-- Byte encoding of a pure-ASCII string literal (code point = byte); used only to write
concrete test inputs readably.  Non-ASCII inputs are written as explicit byte lists. -/
def asciiBytes (s : String) : Bytes := s.data.map Char.toNat

/-- Package record model: the spec's record model (spec 3) keeps an id (uuid), the catalog
key, and a full_name used for exclusion matching; all other PackageListing fields are
irrelevant to the claims. -/
structure Package where
  uuid : Bytes
  full_name : Bytes
deriving DecidableEq

/-- Reads up to the closing quote of a JSON string body (no escape handling; none of the
relevant inputs contain escapes). -/
def scanStringBody : Bytes → Option (Bytes × Bytes)
  | [] => none
  | 34 :: rest => some ([], rest)
  | b :: rest =>
    match scanStringBody rest with
    | none => none
    | some (sres, r) => some (b :: sres, r)

/-- Reads a double-quoted JSON string from the front of the bytes. -/
def parseStringLit : Bytes → Option (Bytes × Bytes)
  | 34 :: rest => scanStringBody rest
  | _ => none

/-- Reads the comma-separated string-to-string members of a flat JSON object up to its
closing brace, returning the fields and the bytes after the brace. -/
def parseFields : Nat → Bytes → Option (List (Bytes × Bytes) × Bytes)
  | 0, _ => none
  | fuel + 1, input =>
    match parseStringLit input with
    | none => none
    | some (key, rest) =>
      match rest with
      | 58 :: rest2 =>
        match parseStringLit rest2 with
        | none => none
        | some (value, rest3) =>
          match rest3 with
          | 44 :: rest4 =>
            match parseFields fuel rest4 with
            | none => none
            | some (fs, r) => some ((key, value) :: fs, r)
          | 125 :: rest4 => some ([(key, value)], rest4)
          | _ => none
      | _ => none

/-- First value bound to a key in a parsed field list. -/
def lookupField : List (Bytes × Bytes) → Bytes → Option Bytes
  | [], _ => none
  | (k, v) :: rest, key => if k = key then some v else lookupField rest key

def uuidKey : Bytes := asciiBytes "uuid"

def fullNameKey : Bytes := asciiBytes "full_name"

/-- Modelled from the spec: serde deserialization of PackageListing
(serde_json::from_str at fetch.rs line 163) - the PackageListing type and its deserializer
are not part of src/.  Following the spec's record model (spec 3: an id/uuid used as the
catalog key and a full_name used for exclusion) it parses one flat JSON object of string
fields from the front of the text and requires both fields.  Bytes after the object's
closing brace are ignored: the spec's own end-to-end example (spec 8) feeds record texts
that carry two trailing bytes from the delimiter scheme and requires them to parse, and
spec 4.1 says to parse the delimiter-bounded prefix as one object.  A text not starting
with an object (such as the first record, which carries the array's opening bracket) fails. -/
def parsePackage (text : Bytes) : Except Unit Package :=
  match text with
  | 123 :: rest =>
    match parseFields text.length rest with
    | none => .error ()
    | some (fields, _) =>
      match lookupField fields uuidKey, lookupField fields fullNameKey with
      | some u, some f => .ok ⟨u, f⟩
      | _, _ => .error ()
  | _ => .error ()

/-- The ordered package collection: an indexmap::IndexMap from uuid to record, modelled as
an association list in insertion order with unique keys. -/
abbrev Catalog := List (Bytes × Package)

/-- IndexMap::insert: an existing key keeps its position and gets the new value;
a new key is appended at the back. -/
def imInsert (m : Catalog) (k : Bytes) (v : Package) : Catalog :=
  if m.any (fun p => p.1 = k) then
    m.map (fun p => if p.1 = k then (p.1, v) else p)
  else m ++ [(k, v)]

/-- IndexMap::extend (fetch.rs line 118) and the drain-extend at line 127: insert every
entry of the second map into the first, in order. -/
def imExtend (m1 m2 : Catalog) : Catalog := m2.foldl (fun m p => imInsert m p.1 p.2) m1

/-- Keys in insertion order. -/
def imKeys (m : Catalog) : List Bytes := m.map (fun p => p.1)

/-- Value stored at a key. -/
def imLookup : Catalog → Bytes → Option Package
  | [], _ => none
  | (k, v) :: rest, key => if k = key then some v else imLookup rest key

/-- Position of a key in the ordered key list (length of the list if absent). -/
def idxOfKey : List Bytes → Bytes → Nat
  | [], _ => 0
  | k :: rest, key => if k = key then 0 else idxOfKey rest key + 1

/-- Per-record handling (fetch.rs lines 163-170): parse the text; on failure only log and
continue; on success drop the record if its full_name is excluded, else insert it keyed by
uuid.  EXCLUDED_PACKAGES is the trimmed line list of excluded_packages.txt, a resource that
is not part of src/, so the exclusion list is a parameter. -/
def handleRecord (excluded : List Bytes) (cat : Catalog) (text : Bytes) : Catalog :=
  match parsePackage text with
  | .error _ => cat
  | .ok p => if p.full_name ∈ excluded then cat else imInsert cat p.uuid p

/-- Folds the per-record handling over the extracted record texts in extraction order,
starting from the empty IndexMap (fetch.rs line 149); this performs exactly the insertions
the loop interleaves with extraction. -/
def buildCatalog (excluded : List Bytes) (recs : List Bytes) : Catalog :=
  recs.foldl (handleRecord excluded) []

/-- fetch_and_parse_packages (fetch.rs lines 145-175) against a network oracle: the oracle
is either a transport/status error (client.get ... error_for_status, or a failing chunk()
call, each propagated by the question-mark operator) or the finite list of body chunks.
On chunks the function is total: it returns Ok with the built catalog. -/
def fetchAndParsePackages (excluded : List Bytes) (response : Except Nat (List Bytes)) :
    Except Nat Catalog :=
  match response with
  | .error e => .error e
  | .ok chunks => .ok (buildCatalog excluded (processChunks chunks).recs)

deriving instance DecidableEq for Except

/-- The one game slug with a supplementary mirror (fetch.rs line 115). -/
def lethalCompanySlug : Bytes := asciiBytes "lethal-company"

/-- The shared Thunderstore state the claims touch: the package IndexMap, the is_fetching
flag and the packages_fetched flag. -/
structure Thunderstore where
  packages : Catalog
  is_fetching : Bool
  packages_fetched : Bool
deriving DecidableEq

/-- The package buffer fetch_packages assembles before writing back (fetch.rs lines
112-119): the primary fetch, extended by the supplementary fetch for the designated slug;
any error aborts the whole attempt. -/
def fetchedBuffer (slug : Bytes) (excluded : List Bytes)
    (primary extraResp : Except Nat (List Bytes)) : Except Nat Catalog :=
  match fetchAndParsePackages excluded primary with
  | .error e => .error e
  | .ok packageBuffer =>
    if slug = lethalCompanySlug then
      match fetchAndParsePackages excluded extraResp with
      | .error e => .error e
      | .ok extraPackages => .ok (imExtend packageBuffer extraPackages)
    else .ok packageBuffer

/-- The write-back section of fetch_packages (fetch.rs lines 125-134): write_directly true
extends the existing map (merge), false replaces it; then packages_fetched is set and
is_fetching cleared. -/
def writeBack (s : Thunderstore) (buf : Catalog) (write_directly : Bool) : Thunderstore :=
  { packages := if write_directly then imExtend s.packages buf else buf,
    is_fetching := false,
    packages_fetched := true }

/-- fetch_packages (fetch.rs lines 96-144) with the two network calls as oracles: on any
fetch error the state is untouched and the error returned; on success the buffer is written
back in the caller-chosen mode.  Logging, timing, and the status_update emit carry no
state and are dropped. -/
def fetch_packages (s : Thunderstore) (slug : Bytes) (write_directly : Bool)
    (excluded : List Bytes) (primary extraResp : Except Nat (List Bytes)) :
    Thunderstore × Except Nat Unit :=
  match fetchedBuffer slug excluded primary extraResp with
  | .error e => (s, .error e)
  | .ok buf => (writeBack s buf write_directly, .ok ())

/-- result.is_ok() on the attempt outcome. -/
def isOkB : Except Nat Unit → Bool
  | .ok _ => true
  | .error _ => false

/-- loop_iter (fetch.rs lines 49-68): skip with Ok when a fetch is already in flight
(lines 55-58); otherwise run fetch_packages with write_directly = is_first, then
unconditionally clear is_fetching, or packages_fetched with success, and keep is_first
only while the result is an error (lines 62-65).  Returns the new state, the new is_first
and the surfaced result. -/
def loop_iter (s : Thunderstore) (is_first : Bool) (slug : Bytes) (excluded : List Bytes)
    (primary extraResp : Except Nat (List Bytes)) : Thunderstore × Bool × Except Nat Unit :=
  if s.is_fetching then (s, is_first, .ok ())
  else
    let fr := fetch_packages s slug is_first excluded primary extraResp
    ({ fr.1 with is_fetching := false,
                 packages_fetched := fr.1.packages_fetched || isOkB fr.2 },
     is_first && !(isOkB fr.2), fr.2)

/-- The values of is_fetching observable during one loop_iter call: at entry (which is
also its value throughout the network phase, since fetch_packages first touches the state
in its write-back), after fetch_packages returns, and after loop_iter's final writes.
A skipped attempt performs no writes and has the single entry observation. -/
def loopIterFetchingTrace (s : Thunderstore) (is_first : Bool) (slug : Bytes)
    (excluded : List Bytes) (primary extraResp : Except Nat (List Bytes)) : List Bool :=
  if s.is_fetching then [s.is_fetching]
  else [s.is_fetching,
        (fetch_packages s slug is_first excluded primary extraResp).1.is_fetching,
        (loop_iter s is_first slug excluded primary extraResp).1.is_fetching]

/-- What one scheduler iteration did: stopped at the preference gate, skipped because a
fetch was in flight, or ran an attempt that succeeded or failed. -/
inductive IterEvent where
  | stopped : IterEvent
  | skipped : IterEvent
  | ran : Bool → IterEvent
deriving DecidableEq

/-- Oracle for one scheduler iteration: the preference read at the top of the loop
(fetch.rs line 34) and the two network outcomes the attempt would see. -/
structure IterInput where
  pref : Bool
  primary : Except Nat (List Bytes)
  extra : Except Nat (List Bytes)

/-- The scheduler loop of fetch_package_loop (fetch.rs lines 33-47) over a finite oracle
list, one entry per iteration: break when the preference is disabled and is_first no longer
holds (line 37), else run loop_iter (errors only logged) and continue.  The fixed 15-minute
sleep separates iterations in real time and is represented by the iteration boundary.
Returns the events, final state and final is_first; a run that consumes all its input
corresponds to a loop still running. -/
def runLoop (slug : Bytes) (excluded : List Bytes) :
    Thunderstore → Bool → List IterInput → List IterEvent × Thunderstore × Bool
  | s, f, [] => ([], s, f)
  | s, f, input :: rest =>
    if !input.pref && !f then ([IterEvent.stopped], s, f)
    else
      let li := loop_iter s f slug excluded input.primary input.extra
      let ev := if s.is_fetching then IterEvent.skipped else IterEvent.ran (isOkB li.2.2)
      let rl := runLoop slug excluded li.1 li.2.1 rest
      (ev :: rl.1, rl.2)

/-- First chunk of the spec's end-to-end example (spec 8). -/
def c3chunk1 : Bytes :=
  asciiBytes "[\x7b\"uuid\":\"a\",\"full_name\":\"x-y-1.0.0\"\x7d]\x7d,\x7b\"uuid\":\"b\",\"full_"

/-- Second chunk of the spec's end-to-end example. -/
def c3chunk2 : Bytes := asciiBytes "name\":\"x-z-1.0.0\"\x7d]\x7d,]"

/-- Exclusion set of the end-to-end example. -/
def c3excluded : List Bytes := [asciiBytes "x-y-1.0.0"]

def pkgA1 : Package := ⟨asciiBytes "a", asciiBytes "oldA"⟩

def pkgB1 : Package := ⟨asciiBytes "b", asciiBytes "oldB"⟩

def pkgB2 : Package := ⟨asciiBytes "b", asciiBytes "newB"⟩

def pkgC2 : Package := ⟨asciiBytes "c", asciiBytes "newC"⟩

def c8pkgOld : Package := ⟨asciiBytes "old", asciiBytes "oldname"⟩

def c8initial : Thunderstore := ⟨[(asciiBytes "old", c8pkgOld)], false, false⟩

def c8chunk : Bytes := asciiBytes "\x7b\"uuid\":\"b\",\"full_name\":\"n\"\x7d]\x7d,"

def c8inputs : List IterInput :=
  [⟨true, Except.error 7, Except.ok []⟩, ⟨true, Except.ok [c8chunk], Except.ok []⟩]

/-- Largest length in a list of byte strings. -/
def maxLen (ls : List Bytes) : Nat := ls.foldl (fun a l => max a l.length) 0

/-- A valid-UTF-8 response split adversarially: one well-formed record chunk, then a
four-byte character delivered so that every later chunk boundary falls mid-character -
a lone lead byte, nineteen chunks each completing one character and starting the next,
and a final completing chunk. -/
def c9chunks : List Bytes :=
  asciiBytes "[\x7b\"uuid\":\"a\",\"full_name\":\"n\"\x7d]\x7d," ::
    [240] :: (List.replicate 19 [144, 128, 128, 240] ++ [[144, 128, 128]])

theorem isPrefixOfTrueIff {l1 l2 : Bytes} : List.isPrefixOf l1 l2 = true ↔ l1 <+: l2 :=
  List.isPrefixOf_iff_prefix

theorem charLenOf_range {b k : Nat} (h : charLenOf b = some k) :
    1 ≤ k ∧ k ≤ 4 ∧ b ≤ 244 := by
  unfold charLenOf at h
  split at h <;> try (split at h) <;> try (split at h) <;> try (split at h)
  all_goals simp_all <;> omega

theorem contBytesOk_append {b : Nat} {rest t : Bytes} {k : Nat}
    (hlen : k ≤ rest.length + 1) (h : contBytesOk b rest k = true) :
    contBytesOk b (rest ++ t) k = true := by
  cases rest with
  | nil => simp [contBytesOk] at h
  | cons b1 rest1 =>
    simp only [contBytesOk, List.cons_append, Bool.and_eq_true] at h ⊢
    refine ⟨h.1, ?_⟩
    have htake : (rest1 ++ t).take (k - 2) = rest1.take (k - 2) := by
      apply List.take_append_of_le_length
      simp only [List.length_cons] at hlen
      omega
    rw [htake]
    exact h.2

theorem utf8CharLen_pos_le {bs : Bytes} {k : Nat} (h : utf8CharLen bs = some k) :
    1 ≤ k ∧ k ≤ bs.length := by
  cases bs with
  | nil => simp [utf8CharLen] at h
  | cons b rest =>
    simp only [utf8CharLen] at h
    cases hc : charLenOf b with
    | none => rw [hc] at h; simp at h
    | some k0 =>
      rw [hc] at h
      have hr := charLenOf_range hc
      simp only at h
      split at h
      · simp only [Option.some.injEq] at h
        simp only [List.length_cons]
        omega
      · split at h
        · simp at h
        · rename_i hk1 hlen
          split at h
          · simp only [Option.some.injEq] at h
            simp only [List.length_cons] at hlen ⊢
            omega
          · simp at h

theorem utf8CharLen_append {bs t : Bytes} {k : Nat} (h : utf8CharLen bs = some k) :
    utf8CharLen (bs ++ t) = some k := by
  cases bs with
  | nil => simp [utf8CharLen] at h
  | cons b rest =>
    simp only [utf8CharLen, List.cons_append] at h ⊢
    cases hc : charLenOf b with
    | none => rw [hc] at h; simp at h
    | some k0 =>
      rw [hc] at h
      simp only at h ⊢
      split at h
      · rename_i hk1
        rw [if_pos hk1]
        exact h
      · rename_i hk1
        rw [if_neg hk1]
        split at h
        · simp at h
        · rename_i hlen
          have hlen2 : ¬((rest ++ t).length + 1 < k0) := by
            simp only [List.length_append]
            omega
          rw [if_neg hlen2]
          split at h
          · rename_i hcond
            rw [contBytesOk_append (by omega) hcond]
            simp only [if_true]
            exact h
          · simp at h

theorem utf8ValidAux_fuel (f1 : Nat) : ∀ (f2 : Nat) (bs : Bytes), bs.length ≤ f1 →
    bs.length ≤ f2 → utf8ValidAux f1 bs = utf8ValidAux f2 bs := by
  induction f1 with
  | zero =>
    intro f2 bs h1 _
    have hbs : bs = [] := List.eq_nil_of_length_eq_zero (Nat.le_zero.mp h1)
    subst hbs
    cases f2 <;> simp [utf8ValidAux, utf8CharLen]
  | succ g1 ih =>
    intro f2 bs h1 h2
    cases f2 with
    | zero =>
      have hbs : bs = [] := List.eq_nil_of_length_eq_zero (Nat.le_zero.mp h2)
      subst hbs
      simp [utf8ValidAux, utf8CharLen]
    | succ g2 =>
      simp only [utf8ValidAux]
      cases hk : utf8CharLen bs with
      | none => rfl
      | some k =>
        have hle := utf8CharLen_pos_le hk
        apply ih
        · simp only [List.length_drop]; omega
        · simp only [List.length_drop]; omega

theorem utf8Valid_eq (bs : Bytes) : utf8Valid bs =
    match utf8CharLen bs with
    | none => bs.isEmpty
    | some k => utf8Valid (bs.drop k) := by
  cases bs with
  | nil => simp [utf8Valid, utf8ValidAux, utf8CharLen]
  | cons b rest =>
    show utf8ValidAux (rest.length + 1) (b :: rest) = _
    simp only [utf8ValidAux]
    cases hk : utf8CharLen (b :: rest) with
    | none => rfl
    | some k =>
      have hle := utf8CharLen_pos_le hk
      simp only
      apply utf8ValidAux_fuel
      · simp only [List.length_drop, List.length_cons] at *; omega
      · simp only [List.length_drop]; omega

theorem utf8Valid_append (a b : Bytes) (ha : utf8Valid a = true) (hb : utf8Valid b = true) :
    utf8Valid (a ++ b) = true := by
  rw [utf8Valid_eq] at ha
  cases hk : utf8CharLen a with
  | none =>
    rw [hk] at ha
    simp only [List.isEmpty_iff] at ha
    subst ha
    simpa using hb
  | some k =>
    rw [hk] at ha
    rw [utf8Valid_eq, utf8CharLen_append hk]
    simp only at ha ⊢
    have hle := utf8CharLen_pos_le hk
    rw [List.drop_append_of_le_length hle.2]
    exact utf8Valid_append (a.drop k) b ha hb
termination_by a.length
decreasing_by
  have hle := utf8CharLen_pos_le hk
  simp only [List.length_drop]
  omega

theorem utf8Valid_right_of_append (a b : Bytes) (ha : utf8Valid a = true)
    (hab : utf8Valid (a ++ b) = true) : utf8Valid b = true := by
  rw [utf8Valid_eq] at ha
  cases hk : utf8CharLen a with
  | none =>
    rw [hk] at ha
    simp only [List.isEmpty_iff] at ha
    subst ha
    simpa using hab
  | some k =>
    rw [hk] at ha
    rw [utf8Valid_eq, utf8CharLen_append hk] at hab
    simp only at ha hab
    have hle := utf8CharLen_pos_le hk
    rw [List.drop_append_of_le_length hle.2] at hab
    exact utf8Valid_right_of_append (a.drop k) b ha hab
termination_by a.length
decreasing_by
  have hle := utf8CharLen_pos_le hk
  simp only [List.length_drop]
  omega

theorem contOk_le {b b1 : Nat} (h : contOk b b1 = true) : b1 ≤ 191 := by
  unfold contOk at h
  split at h <;> try (split at h) <;> try (split at h) <;> try (split at h)
  all_goals simp_all [isCont] <;> omega

theorem utf8CharLen_bytes_le {bs : Bytes} {k : Nat} (h : utf8CharLen bs = some k) :
    ∀ x ∈ bs.take k, x ≤ 244 := by
  cases bs with
  | nil => simp [utf8CharLen] at h
  | cons b rest =>
    simp only [utf8CharLen] at h
    cases hc : charLenOf b with
    | none => rw [hc] at h; simp at h
    | some k0 =>
      rw [hc] at h
      have hr := charLenOf_range hc
      simp only at h
      split at h
      · simp only [Option.some.injEq] at h
        subst h
        have h1 : List.take 1 (b :: rest) = [b] := rfl
        rw [h1]
        intro x hx
        simp at hx
        omega
      · split at h
        · simp at h
        · rename_i hk1 hlen
          split at h
          · rename_i hcont
            simp only [Option.some.injEq] at h
            subst h
            cases rest with
            | nil => simp [contBytesOk] at hcont
            | cons b1 rest1 =>
              simp only [contBytesOk, Bool.and_eq_true] at hcont
              have hb1 := contOk_le hcont.1
              intro x hx
              have hk0 : k0 = (k0 - 1) + 1 := by omega
              rw [hk0, List.take_succ_cons, List.mem_cons] at hx
              rcases hx with rfl | hx
              · omega
              · have : k0 - 1 = (k0 - 2) + 1 := by omega
                rw [this, List.take_succ_cons, List.mem_cons] at hx
                rcases hx with rfl | hx
                · omega
                · have := List.all_eq_true.mp hcont.2 x hx
                  simp [isCont] at this
                  omega
          · simp at h

theorem utf8Valid_of_mem_255 (bs : Bytes) (h : 255 ∈ bs) : utf8Valid bs = false := by
  rw [utf8Valid_eq]
  cases hk : utf8CharLen bs with
  | none =>
    cases bs with
    | nil => simp at h
    | cons b rest => rfl
  | some k =>
    simp only
    apply utf8Valid_of_mem_255
    have hsplit : bs.take k ++ bs.drop k = bs := List.take_append_drop k bs
    have hnot : 255 ∉ bs.take k := by
      intro hmem
      have := utf8CharLen_bytes_le hk 255 hmem
      omega
    rw [← hsplit] at h
    rcases List.mem_append.mp h with h1 | h2
    · exact absurd h1 hnot
    · exact h2
termination_by bs.length
decreasing_by
  have hle := utf8CharLen_pos_le hk
  simp only [List.length_drop]
  omega

theorem findDelim_le {l : Bytes} {i : Nat} (h : findDelim l = some i) : i + 4 ≤ l.length := by
  induction l generalizing i with
  | nil => simp [findDelim] at h
  | cons b rest ih =>
    simp only [findDelim] at h
    split at h
    · rename_i hpre
      have hlen : delim.length ≤ (b :: rest).length :=
        (isPrefixOfTrueIff.mp hpre).length_le
      simp only [Option.some.injEq] at h
      subst h
      simpa [delim] using hlen
    · simp only [Option.map_eq_some'] at h
      obtain ⟨j, hj, rfl⟩ := h
      have := ih hj
      simp only [List.length_cons]
      omega

theorem isPrefixOf_delim_append {l y : Bytes} (hlen : 4 ≤ l.length) :
    List.isPrefixOf delim (l ++ y) = List.isPrefixOf delim l := by
  rcases hp : List.isPrefixOf delim l with _ | _
  · rcases hq : List.isPrefixOf delim (l ++ y) with _ | _
    · rfl
    · exfalso
      have hq2 := isPrefixOfTrueIff.mp hq
      have heq : delim = (l ++ y).take delim.length := List.prefix_iff_eq_take.mp hq2
      have htake : (l ++ y).take delim.length = l.take delim.length := by
        apply List.take_append_of_le_length
        simpa [delim] using hlen
      rw [htake] at heq
      have : List.isPrefixOf delim l = true :=
        isPrefixOfTrueIff.mpr (List.prefix_iff_eq_take.mpr heq)
      rw [hp] at this
      exact Bool.false_ne_true this
  · have hp2 := isPrefixOfTrueIff.mp hp
    have : delim <+: l ++ y := hp2.trans (List.prefix_append l y)
    rw [isPrefixOfTrueIff.mpr this]

theorem findDelim_append_some {x : Bytes} {i : Nat} (y : Bytes) (h : findDelim x = some i) :
    findDelim (x ++ y) = some i := by
  induction x generalizing i with
  | nil => simp [findDelim] at h
  | cons b rest ih =>
    simp only [findDelim] at h
    simp only [List.cons_append, findDelim, List.append_eq, ← List.cons_append]
    split at h
    · rename_i hpre
      have hlen : delim.length ≤ (b :: rest).length :=
        (isPrefixOfTrueIff.mp hpre).length_le
      simp only [delim, List.length_cons] at hlen
      rw [isPrefixOf_delim_append (by simp only [List.length_cons]; omega), if_pos hpre]
      exact h
    · rename_i hpre
      simp only [Option.map_eq_some'] at h
      obtain ⟨j, hj, rfl⟩ := h
      have hlen := findDelim_le hj
      rw [isPrefixOf_delim_append (by simp only [List.length_cons]; omega)]
      simp only [Bool.not_eq_true] at hpre
      rw [hpre]
      simp only [Bool.false_eq_true, if_false, ih hj, Option.map_some']

theorem drainAux_fuel (f1 : Nat) : ∀ (f2 : Nat) (sb : Bytes), sb.length ≤ f1 →
    sb.length ≤ f2 → drainAux f1 sb = drainAux f2 sb := by
  induction f1 with
  | zero =>
    intro f2 sb h1 _
    have hsb : sb = [] := List.eq_nil_of_length_eq_zero (Nat.le_zero.mp h1)
    subst hsb
    cases f2 <;> simp [drainAux, findDelim]
  | succ g1 ih =>
    intro f2 sb h1 h2
    cases f2 with
    | zero =>
      have hsb : sb = [] := List.eq_nil_of_length_eq_zero (Nat.le_zero.mp h2)
      subst hsb
      simp [drainAux, findDelim]
    | succ g2 =>
      simp only [drainAux]
      cases hf : findDelim sb with
      | none => rfl
      | some i =>
        have hle := findDelim_le hf
        simp only
        rw [ih g2 (sb.drop (i + 4)) (by simp only [List.length_drop]; omega)
          (by simp only [List.length_drop]; omega)]

theorem drain_eq (sb : Bytes) : drain sb =
    match findDelim sb with
    | none => ([], sb)
    | some i => (sb.take (i + 3) :: (drain (sb.drop (i + 4))).1, (drain (sb.drop (i + 4))).2) := by
  cases hsb : sb with
  | nil => simp [drain, drainAux, findDelim]
  | cons b rest =>
    rw [← hsb]
    show drainAux sb.length sb = _
    have hpos : 0 < sb.length := by rw [hsb]; simp
    rw [show sb.length = (sb.length - 1) + 1 by omega]
    simp only [drainAux]
    cases hf : findDelim sb with
    | none => rfl
    | some i =>
      have hle := findDelim_le hf
      simp only
      rw [drainAux_fuel (sb.length - 1) (sb.drop (i + 4)).length (sb.drop (i + 4))
        (by simp only [List.length_drop]; omega) (by omega)]
      exact rfl

theorem drain_no_delim (sb : Bytes) : findDelim (drain sb).2 = none := by
  rw [drain_eq]
  cases hf : findDelim sb with
  | none => simpa using hf
  | some i =>
    simp only
    exact drain_no_delim (sb.drop (i + 4))
termination_by sb.length
decreasing_by
  have hle := findDelim_le hf
  simp only [List.length_drop]
  omega

theorem drain_len_le (sb : Bytes) : (drain sb).2.length ≤ sb.length := by
  rw [drain_eq]
  cases hf : findDelim sb with
  | none => simp
  | some i =>
    simp only
    have hle := findDelim_le hf
    have := drain_len_le (sb.drop (i + 4))
    simp only [List.length_drop] at this
    omega
termination_by sb.length
decreasing_by
  have hle := findDelim_le hf
  simp only [List.length_drop]
  omega

theorem drain_append (x y : Bytes) :
    drain (x ++ y) =
      ((drain x).1 ++ (drain ((drain x).2 ++ y)).1, (drain ((drain x).2 ++ y)).2) := by
  cases hf : findDelim x with
  | none =>
    have hx : drain x = ([], x) := by rw [drain_eq, hf]
    rw [hx]
    simp only [List.nil_append]
  | some i =>
    have hi := findDelim_le hf
    have hfxy : findDelim (x ++ y) = some i := findDelim_append_some y hf
    have htake : (x ++ y).take (i + 3) = x.take (i + 3) :=
      List.take_append_of_le_length (by omega)
    have hdrop : (x ++ y).drop (i + 4) = x.drop (i + 4) ++ y :=
      List.drop_append_of_le_length (by omega)
    rw [drain_eq (x ++ y), hfxy]
    simp only
    rw [htake, hdrop, drain_append (x.drop (i + 4)) y]
    rw [drain_eq x, hf]
    simp only
    rw [List.cons_append]
termination_by x.length
decreasing_by
  have hle := findDelim_le hf
  simp only [List.length_drop]
  omega

theorem processChunks_inv (cs : List Bytes) : ExtInv cs.flatten (processChunks cs) := by
  induction cs using List.reverseRecOn with
  | nil =>
    exact ⟨[], rfl, by decide, rfl, rfl, Or.inl rfl⟩
  | append_singleton l c ih =>
    obtain ⟨D, hD, hvD, hrecs, hsb, hbb⟩ := ih
    have hstep : processChunks (l ++ [c]) = processChunk (processChunks l) c := by
      simp [processChunks, List.foldl_append]
    set s := processChunks l with hs
    rw [hstep]
    simp only [processChunk]
    split
    · rename_i hv
      refine ⟨D ++ (s.bb ++ c), ?_, utf8Valid_append _ _ hvD hv, ?_, ?_, Or.inl rfl⟩
      · simp only [List.flatten_append, List.flatten_cons, List.flatten_nil, List.append_nil,
          List.append_assoc, ← hD]
      · simp only [hrecs, hsb, drain_append D (s.bb ++ c)]
      · simp only [hsb, drain_append D (s.bb ++ c)]
    · rename_i hv
      refine ⟨D, ?_, hvD, hrecs, hsb, Or.inr (by simpa using hv)⟩
      simp only [List.flatten_append, List.flatten_cons, List.flatten_nil, List.append_nil,
        ← hD, List.append_assoc]

theorem processChunks_one (t : Bytes) (h : utf8Valid t = true) :
    processChunks [t] = ⟨[], (drain t).2, (drain t).1⟩ := by
  simp only [processChunks, List.foldl_cons, List.foldl_nil, processChunk, initExtState]
  simp only [List.nil_append, if_pos h]

theorem processChunks_flatten (cs : List Bytes) (h : utf8Valid cs.flatten = true) :
    processChunks cs = processChunks [cs.flatten] := by
  obtain ⟨D, hD, hvD, hrecs, hsb, hbb⟩ := processChunks_inv cs
  have hbbnil : (processChunks cs).bb = [] := by
    rcases hbb with h0 | h0
    · exact h0
    · exfalso
      have hvbb : utf8Valid (processChunks cs).bb = true :=
        utf8Valid_right_of_append D _ hvD (by rw [hD]; exact h)
      rw [h0] at hvbb
      exact Bool.false_ne_true (h0 ▸ hvbb)
  have hDfl : D = cs.flatten := by rw [← hD, hbbnil, List.append_nil]
  rw [processChunks_one cs.flatten h]
  have heta : processChunks cs =
      ⟨(processChunks cs).bb, (processChunks cs).sb, (processChunks cs).recs⟩ := rfl
  rw [heta, hbbnil, hsb, hrecs, hDfl]

theorem imLookup_append_of_any_false {m : Catalog} {k : Bytes} (l : Catalog)
    (h : m.any (fun p => p.1 = k) = false) : imLookup (m ++ l) k = imLookup l k := by
  induction m with
  | nil => simp
  | cons p rest ih =>
    obtain ⟨k1, v1⟩ := p
    simp only [List.any_cons, Bool.or_eq_false_iff] at h
    have hk1 : ¬(k1 = k) := of_decide_eq_false h.1
    simp only [List.cons_append, imLookup]
    rw [if_neg hk1]
    exact ih h.2

theorem imLookup_map_repl_ne (m : Catalog) (k k' : Bytes) (v : Package) (hne : k' ≠ k) :
    imLookup (m.map (fun p => if p.1 = k then (p.1, v) else p)) k' = imLookup m k' := by
  induction m with
  | nil => rfl
  | cons p rest ih =>
    obtain ⟨k1, v1⟩ := p
    simp only [List.map_cons]
    by_cases hk1 : k1 = k
    · rw [if_pos (show (k1, v1).1 = k from hk1)]
      simp only [imLookup]
      rw [if_neg (fun h : k1 = k' => hne (h ▸ hk1)), if_neg (fun h : k1 = k' => hne (h ▸ hk1))]
      exact ih
    · rw [if_neg (show ¬(k1, v1).1 = k from hk1)]
      simp only [imLookup]
      split
      · rfl
      · exact ih

theorem imLookup_append_single_ne (m : Catalog) (k k' : Bytes) (v : Package) (hne : k' ≠ k) :
    imLookup (m ++ [(k, v)]) k' = imLookup m k' := by
  induction m with
  | nil =>
    show (if k = k' then some v else imLookup [] k') = imLookup [] k'
    rw [if_neg (fun h : k = k' => hne (Eq.symm h))]
  | cons p rest ih =>
    obtain ⟨k1, v1⟩ := p
    simp only [List.cons_append, imLookup]
    split
    · rfl
    · exact ih

theorem imInsert_lookup_self (m : Catalog) (k : Bytes) (v : Package) :
    imLookup (imInsert m k v) k = some v := by
  unfold imInsert
  split
  · rename_i hany
    induction m with
    | nil => simp at hany
    | cons p rest ih =>
      obtain ⟨k1, v1⟩ := p
      simp only [List.any_cons, Bool.or_eq_true] at hany
      simp only [List.map_cons]
      by_cases hk : k1 = k
      · rw [if_pos (show (k1, v1).1 = k from hk)]
        simp only [imLookup]
        rw [if_pos hk]
      · rw [if_neg (show ¬(k1, v1).1 = k from hk)]
        simp only [imLookup]
        rw [if_neg hk]
        apply ih
        rcases hany with h | h
        · exact absurd (of_decide_eq_true h) hk
        · exact h
  · rename_i hany
    rw [imLookup_append_of_any_false _ (Bool.eq_false_iff.mpr hany)]
    simp [imLookup]

theorem imInsert_lookup_ne (m : Catalog) (k k' : Bytes) (v : Package) (hne : k' ≠ k) :
    imLookup (imInsert m k v) k' = imLookup m k' := by
  unfold imInsert
  split
  · exact imLookup_map_repl_ne m k k' v hne
  · exact imLookup_append_single_ne m k k' v hne

theorem imKeys_map_repl (m : Catalog) (k : Bytes) (v : Package) :
    imKeys (m.map (fun p => if p.1 = k then (p.1, v) else p)) = imKeys m := by
  induction m with
  | nil => rfl
  | cons p rest ih =>
    obtain ⟨k1, v1⟩ := p
    simp only [List.map_cons]
    by_cases hk1 : k1 = k
    · rw [if_pos (show (k1, v1).1 = k from hk1)]
      simp only [imKeys, List.map_cons] at *
      exact congrArg (k1 :: ·) ih
    · rw [if_neg (show ¬(k1, v1).1 = k from hk1)]
      simp only [imKeys, List.map_cons] at *
      exact congrArg (k1 :: ·) ih

theorem imKeys_imInsert (m : Catalog) (k : Bytes) (v : Package) :
    imKeys (imInsert m k v) =
      if m.any (fun p => p.1 = k) then imKeys m else imKeys m ++ [k] := by
  unfold imInsert
  split
  · exact imKeys_map_repl m k v
  · simp [imKeys]

theorem imKeys_mem_iff_any (m : Catalog) (k : Bytes) :
    m.any (fun p => p.1 = k) = true ↔ k ∈ imKeys m := by
  simp only [List.any_eq_true, decide_eq_true_eq, imKeys, List.mem_map]

theorem imExtend_lookup_not_mem (m2 : Catalog) (k : Bytes) :
    ∀ m1 : Catalog, k ∉ imKeys m2 → imLookup (imExtend m1 m2) k = imLookup m1 k := by
  induction m2 with
  | nil => intro m1 _; rfl
  | cons p rest ih =>
    intro m1 hk
    obtain ⟨k2, v2⟩ := p
    simp only [imKeys, List.map_cons, List.mem_cons, not_or] at hk
    show imLookup (imExtend (imInsert m1 k2 v2) rest) k = _
    rw [ih (imInsert m1 k2 v2) (by simpa [imKeys] using hk.2)]
    exact imInsert_lookup_ne m1 k2 k v2 hk.1

theorem imExtend_lookup_mem (m2 : Catalog) (k : Bytes) :
    ∀ m1 : Catalog, (imKeys m2).Nodup → k ∈ imKeys m2 →
      imLookup (imExtend m1 m2) k = imLookup m2 k := by
  induction m2 with
  | nil => intro m1 _ h; simp [imKeys] at h
  | cons p rest ih =>
    intro m1 hnd hk
    obtain ⟨k2, v2⟩ := p
    simp only [imKeys, List.map_cons, List.nodup_cons] at hnd
    show imLookup (imExtend (imInsert m1 k2 v2) rest) k = imLookup ((k2, v2) :: rest) k
    by_cases hkk : k = k2
    · subst hkk
      rw [imExtend_lookup_not_mem rest k (imInsert m1 k v2) (by simpa [imKeys] using hnd.1)]
      rw [imInsert_lookup_self]
      simp [imLookup]
    · simp only [imKeys, List.map_cons, List.mem_cons] at hk
      rcases hk with h | h
      · exact absurd h hkk
      · rw [ih (imInsert m1 k2 v2) hnd.2 (by simpa [imKeys] using h)]
        show imLookup rest k = imLookup ((k2, v2) :: rest) k
        simp only [imLookup]
        rw [if_neg (fun hx : k2 = k => hkk (Eq.symm hx))]

theorem imExtend_keys_ext (m2 : Catalog) :
    ∀ m1 : Catalog, ∃ ex : List Bytes, imKeys (imExtend m1 m2) = imKeys m1 ++ ex := by
  induction m2 with
  | nil => intro m1; exact ⟨[], by simp [imExtend]⟩
  | cons p rest ih =>
    intro m1
    obtain ⟨k2, v2⟩ := p
    obtain ⟨ex, hex⟩ := ih (imInsert m1 k2 v2)
    show ∃ ex, imKeys (imExtend (imInsert m1 k2 v2) rest) = _
    rw [hex, imKeys_imInsert]
    split
    · exact ⟨ex, rfl⟩
    · exact ⟨[k2] ++ ex, by rw [List.append_assoc]⟩

theorem idxOfKey_append_left {l1 : List Bytes} {k : Bytes} (l2 : List Bytes) (h : k ∈ l1) :
    idxOfKey (l1 ++ l2) k = idxOfKey l1 k := by
  induction l1 with
  | nil => simp at h
  | cons k1 rest ih =>
    simp only [List.cons_append, idxOfKey, List.append_eq]
    split
    · rfl
    · rename_i hne
      have h1 : k ∈ rest := by
        rcases List.mem_cons.mp h with h1 | h1
        · exact absurd h1.symm hne
        · exact h1
      rw [ih h1]

theorem runLoop_cons_stop (slug : Bytes) (excluded : List Bytes) (s : Thunderstore) (f : Bool)
    (inp : IterInput) (rest : List IterInput) (hg : (!inp.pref && !f) = true) :
    runLoop slug excluded s f (inp :: rest) = ([IterEvent.stopped], s, f) := by
  simp only [runLoop, if_pos hg]

theorem runLoop_cons_go (slug : Bytes) (excluded : List Bytes) (s : Thunderstore) (f : Bool)
    (inp : IterInput) (rest : List IterInput) (hg : ¬((!inp.pref && !f) = true)) :
    runLoop slug excluded s f (inp :: rest) =
      ((if s.is_fetching then IterEvent.skipped
        else IterEvent.ran (isOkB (loop_iter s f slug excluded inp.primary inp.extra).2.2)) ::
          (runLoop slug excluded (loop_iter s f slug excluded inp.primary inp.extra).1
            (loop_iter s f slug excluded inp.primary inp.extra).2.1 rest).1,
       (runLoop slug excluded (loop_iter s f slug excluded inp.primary inp.extra).1
         (loop_iter s f slug excluded inp.primary inp.extra).2.1 rest).2) := by
  simp only [runLoop, if_neg hg]

theorem loop_iter_isFirst (s : Thunderstore) (f : Bool) (slug : Bytes) (excluded : List Bytes)
    (primary extra : Except Nat (List Bytes)) :
    (loop_iter s f slug excluded primary extra).2.1 =
      if s.is_fetching then f
      else f && !(isOkB (fetch_packages s slug f excluded primary extra).2) := by
  unfold loop_iter
  split <;> rfl

theorem loop_iter_result (s : Thunderstore) (f : Bool) (slug : Bytes) (excluded : List Bytes)
    (primary extra : Except Nat (List Bytes)) :
    (loop_iter s f slug excluded primary extra).2.2 =
      if s.is_fetching then Except.ok ()
      else (fetch_packages s slug f excluded primary extra).2 := by
  unfold loop_iter
  split <;> rfl

theorem loop_iter_is_fetching_false (s : Thunderstore) (f : Bool) (slug : Bytes)
    (excluded : List Bytes) (primary extra : Except Nat (List Bytes))
    (h : s.is_fetching = false) :
    (loop_iter s f slug excluded primary extra).1.is_fetching = false := by
  unfold loop_iter
  rw [if_neg (by rw [h]; exact Bool.false_ne_true)]

theorem fetch_packages_is_fetching (s : Thunderstore) (slug : Bytes) (wd : Bool)
    (excluded : List Bytes) (primary extra : Except Nat (List Bytes))
    (h : s.is_fetching = false) :
    (fetch_packages s slug wd excluded primary extra).1.is_fetching = false := by
  unfold fetch_packages
  cases hb : fetchedBuffer slug excluded primary extra with
  | error e => exact h
  | ok buf => rfl

theorem runLoop_stopped_spec (slug : Bytes) (excluded : List Bytes) :
    ∀ (inputs : List IterInput) (s : Thunderstore) (f : Bool) (i : Nat),
      (runLoop slug excluded s f inputs).1[i]? = some IterEvent.stopped →
      (∃ inp, inputs[i]? = some inp ∧ inp.pref = false) ∧
        (f = false ∨ ∃ j, j < i ∧
          (runLoop slug excluded s f inputs).1[j]? = some (IterEvent.ran true)) := by
  intro inputs
  induction inputs with
  | nil => intro s f i h; simp [runLoop] at h
  | cons inp rest ih =>
    intro s f i h
    by_cases hg : (!inp.pref && !f) = true
    · rw [runLoop_cons_stop slug excluded s f inp rest hg] at h ⊢
      simp only [Bool.and_eq_true, Bool.not_eq_true'] at hg
      cases i with
      | zero =>
        exact ⟨⟨inp, List.getElem?_cons_zero, hg.1⟩, Or.inl hg.2⟩
      | succ j => simp at h
    · rw [runLoop_cons_go slug excluded s f inp rest hg] at h ⊢
      cases i with
      | zero =>
        simp only [List.getElem?_cons_zero, Option.some.injEq] at h
        split at h <;> simp at h
      | succ j =>
        simp only [List.getElem?_cons_succ] at h
        obtain ⟨⟨inp2, hinp2, hpref2⟩, hor⟩ :=
          ih (loop_iter s f slug excluded inp.primary inp.extra).1
            (loop_iter s f slug excluded inp.primary inp.extra).2.1 j h
        refine ⟨⟨inp2, by simpa using hinp2, hpref2⟩, ?_⟩
        rcases hor with hf2 | ⟨j2, hj2, hran⟩
        · rw [loop_iter_isFirst] at hf2
          by_cases hfet : s.is_fetching
          · rw [if_pos hfet] at hf2
            exact Or.inl hf2
          · rw [if_neg hfet] at hf2
            rcases Bool.and_eq_false_iff.mp hf2 with hf3 | hf3
            · exact Or.inl hf3
            · refine Or.inr ⟨0, Nat.succ_pos j, ?_⟩
              simp only [List.getElem?_cons_zero, Option.some.injEq]
              rw [if_neg hfet]
              rw [loop_iter_result, if_neg hfet]
              simp only [Bool.not_eq_false'] at hf3
              rw [hf3]
        · exact Or.inr ⟨j2 + 1, by omega, by simpa using hran⟩

theorem runLoop_stops_at_spec (slug : Bytes) (excluded : List Bytes) :
    ∀ (inputs : List IterInput) (s : Thunderstore) (f : Bool) (i : Nat) (ev : IterEvent),
      (runLoop slug excluded s f inputs).1[i]? = some ev →
      (∃ inp, inputs[i]? = some inp ∧ inp.pref = false) →
      (f = false ∨ ∃ j, j < i ∧
        (runLoop slug excluded s f inputs).1[j]? = some (IterEvent.ran true)) →
      ev = IterEvent.stopped := by
  intro inputs
  induction inputs with
  | nil => intro s f i ev h _ _; simp [runLoop] at h
  | cons inp rest ih =>
    intro s f i ev h hpref hor
    by_cases hg : (!inp.pref && !f) = true
    · rw [runLoop_cons_stop slug excluded s f inp rest hg] at h
      cases i with
      | zero => simpa using h.symm
      | succ j => simp at h
    · rw [runLoop_cons_go slug excluded s f inp rest hg] at h hor
      cases i with
      | zero =>
        obtain ⟨inp2, hinp2, hpref2⟩ := hpref
        simp only [List.getElem?_cons_zero, Option.some.injEq] at hinp2
        subst hinp2
        have hf : f = false := by
          rcases hor with hf | ⟨j, hj, _⟩
          · exact hf
          · omega
        exfalso
        apply hg
        simp only [Bool.and_eq_true, Bool.not_eq_true']
        exact ⟨hpref2, hf⟩
      | succ j =>
        simp only [List.getElem?_cons_succ] at h
        apply ih (loop_iter s f slug excluded inp.primary inp.extra).1
          (loop_iter s f slug excluded inp.primary inp.extra).2.1 j ev h
        · obtain ⟨inp2, hinp2, hpref2⟩ := hpref
          exact ⟨inp2, by simpa using hinp2, hpref2⟩
        · rcases hor with hf | ⟨j2, hj2, hran⟩
          · left
            rw [loop_iter_isFirst, hf]
            split <;> rfl
          · cases j2 with
            | zero =>
              left
              simp only [List.getElem?_cons_zero, Option.some.injEq] at hran
              rw [loop_iter_isFirst]
              by_cases hfet : s.is_fetching
              · rw [if_pos hfet] at hran
                simp at hran
              · rw [if_neg hfet] at hran
                simp only [IterEvent.ran.injEq] at hran
                rw [if_neg hfet, loop_iter_result, if_neg hfet] at *
                rw [hran]
                simp
            | succ j3 =>
              right
              simp only [List.getElem?_cons_succ] at hran
              exact ⟨j3, by omega, hran⟩

theorem runLoop_no_stop_length (slug : Bytes) (excluded : List Bytes) :
    ∀ (inputs : List IterInput) (s : Thunderstore) (f : Bool),
      IterEvent.stopped ∉ (runLoop slug excluded s f inputs).1 →
      (runLoop slug excluded s f inputs).1.length = inputs.length := by
  intro inputs
  induction inputs with
  | nil => intro s f _; rfl
  | cons inp rest ih =>
    intro s f h
    by_cases hg : (!inp.pref && !f) = true
    · rw [runLoop_cons_stop slug excluded s f inp rest hg] at h
      simp at h
    · rw [runLoop_cons_go slug excluded s f inp rest hg] at h ⊢
      simp only [List.length_cons, List.length_cons]
      rw [ih _ _ (fun hmem => h (List.mem_cons_of_mem _ hmem))]

theorem runLoop_first_runs (slug : Bytes) (excluded : List Bytes) (s : Thunderstore)
    (inp : IterInput) (rest : List IterInput) (hfet : s.is_fetching = false) :
    (runLoop slug excluded s true (inp :: rest)).1[0]? =
      some (IterEvent.ran (isOkB (loop_iter s true slug excluded inp.primary inp.extra).2.2)) := by
  have hg : ¬((!inp.pref && !true) = true) := by simp
  rw [runLoop_cons_go slug excluded s true inp rest hg]
  simp only [List.getElem?_cons_zero, Option.some.injEq]
  rw [if_neg (by rw [hfet]; exact Bool.false_ne_true)]

theorem fetch_packages_primary_error (s : Thunderstore) (slug : Bytes) (wd : Bool)
    (excluded : List Bytes) (e : Nat) (extra : Except Nat (List Bytes)) :
    fetch_packages s slug wd excluded (Except.error e) extra = (s, Except.error e) := rfl

theorem loop_iter_primary_error (s : Thunderstore) (f : Bool) (slug : Bytes)
    (excluded : List Bytes) (e : Nat) (extra : Except Nat (List Bytes))
    (hfet : s.is_fetching = false) :
    loop_iter s f slug excluded (Except.error e) extra =
      (⟨s.packages, false, s.packages_fetched⟩, f, Except.error e) := by
  unfold loop_iter
  rw [if_neg (by rw [hfet]; exact Bool.false_ne_true)]
  rw [fetch_packages_primary_error]
  simp only [isOkB, Bool.or_false, Bool.not_false, Bool.and_true]

theorem fetch_packages_ok (s : Thunderstore) (slug : Bytes) (wd : Bool)
    (excluded : List Bytes) (primary extra : Except Nat (List Bytes)) (buf : Catalog)
    (hbuf : fetchedBuffer slug excluded primary extra = Except.ok buf) :
    fetch_packages s slug wd excluded primary extra = (writeBack s buf wd, Except.ok ()) := by
  unfold fetch_packages
  rw [hbuf]

theorem loop_iter_ok (s : Thunderstore) (f : Bool) (slug : Bytes) (excluded : List Bytes)
    (primary extra : Except Nat (List Bytes)) (buf : Catalog)
    (hfet : s.is_fetching = false)
    (hbuf : fetchedBuffer slug excluded primary extra = Except.ok buf) :
    loop_iter s f slug excluded primary extra =
      (⟨if f then imExtend s.packages buf else buf, false, true⟩, false, Except.ok ()) := by
  unfold loop_iter
  rw [if_neg (by rw [hfet]; exact Bool.false_ne_true)]
  rw [fetch_packages_ok s slug f excluded primary extra buf hbuf]
  simp only [isOkB, Bool.or_true, Bool.not_true, Bool.and_false]
  rfl

theorem processChunk_invalid (s : ExtState) (c : Bytes) (h : utf8Valid (s.bb ++ c) = false) :
    processChunk s c = ⟨s.bb ++ c, s.sb, s.recs⟩ := by
  unfold processChunk
  rw [if_neg (by rw [h]; exact Bool.false_ne_true)]

theorem processChunk_poisoned (s : ExtState) (c : Bytes) (h : 255 ∈ s.bb) :
    processChunk s c = ⟨s.bb ++ c, s.sb, s.recs⟩ :=
  processChunk_invalid s c (utf8Valid_of_mem_255 _ (List.mem_append.mpr (Or.inl h)))

theorem foldl_poisoned (post : List Bytes) : ∀ s : ExtState, 255 ∈ s.bb →
    (List.foldl processChunk s post).recs = s.recs := by
  induction post with
  | nil => intro s _; rfl
  | cons c rest ih =>
    intro s h
    rw [List.foldl_cons, processChunk_poisoned s c h]
    exact ih _ (List.mem_append.mpr (Or.inl h))

theorem processChunks_poison (pre : List Bytes) (c : Bytes) (post : List Bytes)
    (hmem : 255 ∈ c) :
    (processChunks (pre ++ c :: post)).recs = (processChunks pre).recs := by
  unfold processChunks
  rw [List.foldl_append, List.foldl_cons]
  rw [processChunk_invalid _ c
    (utf8Valid_of_mem_255 _ (List.mem_append.mpr (Or.inr hmem)))]
  exact foldl_poisoned post _ (List.mem_append.mpr (Or.inr hmem))

theorem handleRecord_bad (excluded : List Bytes) (cat : Catalog) (bad : Bytes)
    (hbad : parsePackage bad = Except.error ()) :
    handleRecord excluded cat bad = cat := by
  unfold handleRecord
  rw [hbad]

theorem buildCatalog_skip_bad (excluded : List Bytes) (pre post : List Bytes) (bad : Bytes)
    (hbad : parsePackage bad = Except.error ()) :
    buildCatalog excluded (pre ++ bad :: post) = buildCatalog excluded (pre ++ post) := by
  unfold buildCatalog
  rw [List.foldl_append, List.foldl_append, List.foldl_cons,
    handleRecord_bad excluded _ bad hbad]

/-- C1: streaming correctness.  For any split of the response body into byte chunks whose
concatenation is valid UTF-8 (as the serialization of a JSON array is) - boundaries may
fall inside multi-byte characters and inside object bodies - the extractor reaches exactly
the state it reaches on the whole body as one chunk: the same record texts in the same
order, and fetch_and_parse_packages returns the same parsed catalog. -/
theorem claim_C1 (excluded : List Bytes) (cs : List Bytes)
    (h : utf8Valid cs.flatten = true) :
    processChunks cs = processChunks [cs.flatten] ∧
    (processChunks cs).recs = (processChunks [cs.flatten]).recs ∧
    fetchAndParsePackages excluded (Except.ok cs) =
      fetchAndParsePackages excluded (Except.ok [cs.flatten]) := by
  have h1 := processChunks_flatten cs h
  refine ⟨h1, by rw [h1], ?_⟩
  show Except.ok (buildCatalog excluded (processChunks cs).recs) =
    Except.ok (buildCatalog excluded (processChunks [cs.flatten]).recs)
  rw [h1]

/-- Witness: a concrete split that cuts the two-byte character 0xC3 0xA9 between chunks. -/
theorem claim_C1_witness :
    utf8Valid ([[91, 195], [169, 125, 93, 125, 44]] : List Bytes).flatten = true ∧
    processChunks [[91, 195], [169, 125, 93, 125, 44]] =
      processChunks [([[91, 195], [169, 125, 93, 125, 44]] : List Bytes).flatten] :=
  ⟨by decide, (claim_C1 [] [[91, 195], [169, 125, 93, 125, 44]] (by decide)).1⟩

/-- C2 counterexample: a scheduler attempt that runs from a clear flag and succeeds (third
conjunct) observes is_fetching = false at every point - entry, during the fetch, after
fetch_packages, and after loop_iter's writes.  The claimed false-true-false transition
never happens: the scheduler never sets the flag to true (no assignment in fetch.rs sets
it; only an external trigger does). -/
theorem claim_C2_counterexample :
    loopIterFetchingTrace ⟨[], false, false⟩ true (asciiBytes "g") [] (Except.ok [])
      (Except.ok []) = [false, false, false] ∧
    ¬(true ∈ loopIterFetchingTrace ⟨[], false, false⟩ true (asciiBytes "g") []
      (Except.ok []) (Except.ok [])) ∧
    isOkB (loop_iter ⟨[], false, false⟩ true (asciiBytes "g") [] (Except.ok [])
      (Except.ok [])).2.2 = true := by decide

/-- C2 (amended): the is_fetching flag is never set to true by a scheduler-run attempt -
started with the flag clear, every observable point of the attempt shows false - and it is
cleared to false on every exit path of a non-skipped attempt, including failure, so the
flag never remains true after a crash-free attempt and the sequential loop keeps at most
one of its own fetches in flight. -/
theorem claim_C2_amended (s : Thunderstore) (f : Bool) (slug : Bytes) (excluded : List Bytes)
    (primary extra : Except Nat (List Bytes)) (h : s.is_fetching = false) :
    (loopIterFetchingTrace s f slug excluded primary extra).all (fun b => b = false) = true ∧
    (loop_iter s f slug excluded primary extra).1.is_fetching = false := by
  constructor
  · unfold loopIterFetchingTrace
    rw [if_neg (by rw [h]; exact Bool.false_ne_true)]
    simp only [List.all_cons, List.all_nil, Bool.and_true]
    rw [h, fetch_packages_is_fetching s slug f excluded primary extra h,
      loop_iter_is_fetching_false s f slug excluded primary extra h]
    decide
  · exact loop_iter_is_fetching_false s f slug excluded primary extra h

/-- Witness: the amended statement at a concrete failing attempt. -/
theorem claim_C2_witness :
    (loopIterFetchingTrace ⟨[], false, false⟩ false (asciiBytes "g") [] (Except.error 5)
      (Except.ok [])).all (fun b => b = false) = true :=
  (claim_C2_amended ⟨[], false, false⟩ false (asciiBytes "g") [] (Except.error 5)
    (Except.ok []) rfl).1

/-- C3: the spec's end-to-end example.  Feeding the extractor the two chunks of spec 8
with exclusion set x-y-1.0.0 yields a catalog whose only key is b, and the fetch returns
it wrapped in Ok.  The a record's text carries the array's opening bracket and fails the
spec-modelled parser (and its full_name is the excluded one besides); the b record parses
and is admitted.  Settled against the spec-modelled parsePackage, since PackageListing's
deserializer is not in src/. -/
theorem claim_C3 :
    imKeys (buildCatalog c3excluded (processChunks [c3chunk1, c3chunk2]).recs) =
      [asciiBytes "b"] ∧
    fetchAndParsePackages c3excluded (Except.ok [c3chunk1, c3chunk2]) =
      Except.ok (buildCatalog c3excluded (processChunks [c3chunk1, c3chunk2]).recs) := by
  constructor
  · decide
  · rfl

/-- C4: merge precedence.  When a key occurs in both the primary map and the supplementary
map (merged after it, keys of the supplementary map distinct as an IndexMap's are), the
supplementary record wins the value while the key keeps its first-seen position; a key only
in the primary map keeps its value and position; a key only in the supplementary map gets
the supplementary value. -/
theorem claim_C4 (m1 m2 : Catalog) (k k2 k3 : Bytes)
    (hnd : (imKeys m2).Nodup) (hk1 : k ∈ imKeys m1) (hk2 : k ∈ imKeys m2)
    (hk21 : k2 ∈ imKeys m1) (hk22 : k2 ∉ imKeys m2) (hk32 : k3 ∈ imKeys m2) :
    imLookup (imExtend m1 m2) k = imLookup m2 k ∧
    idxOfKey (imKeys (imExtend m1 m2)) k = idxOfKey (imKeys m1) k ∧
    imLookup (imExtend m1 m2) k2 = imLookup m1 k2 ∧
    idxOfKey (imKeys (imExtend m1 m2)) k2 = idxOfKey (imKeys m1) k2 ∧
    imLookup (imExtend m1 m2) k3 = imLookup m2 k3 := by
  obtain ⟨ex, hex⟩ := imExtend_keys_ext m2 m1
  exact ⟨imExtend_lookup_mem m2 k m1 hnd hk2,
    by rw [hex]; exact idxOfKey_append_left ex hk1,
    imExtend_lookup_not_mem m2 k2 m1 hk22,
    by rw [hex]; exact idxOfKey_append_left ex hk21,
    imExtend_lookup_mem m2 k3 m1 hnd hk32⟩

/-- Witness: two concrete maps sharing the key b. -/
theorem claim_C4_witness :
    imLookup (imExtend [(asciiBytes "a", pkgA1), (asciiBytes "b", pkgB1)]
        [(asciiBytes "b", pkgB2), (asciiBytes "c", pkgC2)]) (asciiBytes "b") =
      imLookup [(asciiBytes "b", pkgB2), (asciiBytes "c", pkgC2)] (asciiBytes "b") ∧
    idxOfKey (imKeys (imExtend [(asciiBytes "a", pkgA1), (asciiBytes "b", pkgB1)]
        [(asciiBytes "b", pkgB2), (asciiBytes "c", pkgC2)])) (asciiBytes "b") =
      idxOfKey (imKeys [(asciiBytes "a", pkgA1), (asciiBytes "b", pkgB1)]) (asciiBytes "b") := by
  have h := claim_C4 [(asciiBytes "a", pkgA1), (asciiBytes "b", pkgB1)]
    [(asciiBytes "b", pkgB2), (asciiBytes "c", pkgC2)]
    (asciiBytes "b") (asciiBytes "a") (asciiBytes "c")
    (by decide) (by decide) (by decide) (by decide) (by decide) (by decide)
  exact ⟨h.1, h.2.1⟩

/-- C5 counterexample: the preference is disabled on every iteration and the first fetch
fails; the claim says the second iteration must terminate the loop, but the run records a
second fetch attempt (which succeeds) instead of a stop - is_first persists across failed
attempts (fetch.rs line 65), so the break at line 37 is still disarmed. -/
theorem claim_C5_counterexample :
    (runLoop (asciiBytes "g") [] ⟨[], false, false⟩ true
      [⟨false, Except.error 0, Except.ok []⟩, ⟨false, Except.ok [], Except.ok []⟩]).1 =
      [IterEvent.ran false, IterEvent.ran true] ∧
    ¬((runLoop (asciiBytes "g") [] ⟨[], false, false⟩ true
      [⟨false, Except.error 0, Except.ok []⟩, ⟨false, Except.ok [], Except.ok []⟩]).1[1]? =
        some IterEvent.stopped) := by decide

/-- C5 (amended): started with is_first, the loop always runs a fetch on its very first
iteration regardless of the preference; an iteration observes the stop event exactly when
its preference reads disabled and some earlier attempt ran and succeeded (the first
designation persists across failed and skipped attempts, not just past the first
iteration); and a run with no stop event consumes its entire input - the loop otherwise
runs indefinitely. -/
theorem claim_C5_amended (slug : Bytes) (excluded : List Bytes) (s : Thunderstore)
    (inputs : List IterInput) (hfet : s.is_fetching = false) :
    (∀ inp rest, inputs = inp :: rest →
      (runLoop slug excluded s true inputs).1[0]? =
        some (IterEvent.ran (isOkB (loop_iter s true slug excluded inp.primary
          inp.extra).2.2))) ∧
    (∀ i : Nat, (runLoop slug excluded s true inputs).1[i]? = some IterEvent.stopped →
      (∃ inp : IterInput, inputs[i]? = some inp ∧ inp.pref = false) ∧
      ∃ j : Nat, j < i ∧ (runLoop slug excluded s true inputs).1[j]? =
        some (IterEvent.ran true)) ∧
    (∀ (i : Nat) (ev : IterEvent), (runLoop slug excluded s true inputs).1[i]? = some ev →
      (∃ inp : IterInput, inputs[i]? = some inp ∧ inp.pref = false) →
      (∃ j : Nat, j < i ∧ (runLoop slug excluded s true inputs).1[j]? =
        some (IterEvent.ran true)) →
      ev = IterEvent.stopped) ∧
    (IterEvent.stopped ∉ (runLoop slug excluded s true inputs).1 →
      (runLoop slug excluded s true inputs).1.length = inputs.length) := by
  refine ⟨?_, ?_, ?_, runLoop_no_stop_length slug excluded inputs s true⟩
  · rintro inp rest rfl
    exact runLoop_first_runs slug excluded s inp rest hfet
  · intro i h
    obtain ⟨h1, h2⟩ := runLoop_stopped_spec slug excluded inputs s true i h
    rcases h2 with h2 | h2
    · simp at h2
    · exact ⟨h1, h2⟩
  · intro i ev h hp hj
    exact runLoop_stops_at_spec slug excluded inputs s true i ev h hp (Or.inr hj)

/-- Witness: the first-iteration clause at a concrete one-iteration run. -/
theorem claim_C5_witness :
    (runLoop (asciiBytes "g") [] ⟨[], false, false⟩ true
      [⟨true, Except.ok [], Except.ok []⟩]).1[0]? =
      some (IterEvent.ran (isOkB (loop_iter ⟨[], false, false⟩ true (asciiBytes "g") []
        (Except.ok []) (Except.ok [])).2.2)) :=
  (claim_C5_amended (asciiBytes "g") [] ⟨[], false, false⟩
    [⟨true, Except.ok [], Except.ok []⟩] rfl).1 ⟨true, Except.ok [], Except.ok []⟩ [] rfl

/-- C6: a failing primary request (transport error or non-success status, surfaced as the
error oracle) aborts the whole attempt with that error: the package collection and the
packages_fetched flag are exactly as before, is_first is preserved, and the scheduler loop
records a failed attempt and continues into the remaining iterations - the fixed-interval
sleep then separates it from the next one - rather than stopping. -/
theorem claim_C6 (slug : Bytes) (excluded : List Bytes) (s : Thunderstore) (f : Bool)
    (inp : IterInput) (rest : List IterInput) (e : Nat)
    (hfet : s.is_fetching = false) (hprim : inp.primary = Except.error e)
    (hgate : ¬((!inp.pref && !f) = true)) :
    loop_iter s f slug excluded inp.primary inp.extra =
      (⟨s.packages, false, s.packages_fetched⟩, f, Except.error e) ∧
    (runLoop slug excluded s f (inp :: rest)).1 =
      IterEvent.ran false ::
        (runLoop slug excluded ⟨s.packages, false, s.packages_fetched⟩ f rest).1 := by
  have hli := loop_iter_primary_error s f slug excluded e inp.extra hfet
  constructor
  · rw [hprim]
    exact hli
  · rw [runLoop_cons_go slug excluded s f inp rest hgate]
    simp only [hprim, hli]
    rw [if_neg (by rw [hfet]; exact Bool.false_ne_true)]
    rfl

/-- Witness: a concrete failing attempt leaves the concrete store unchanged. -/
theorem claim_C6_witness :
    loop_iter ⟨[], false, false⟩ true (asciiBytes "g") [] (Except.error 3) (Except.ok []) =
      (⟨[], false, false⟩, true, Except.error 3) :=
  (claim_C6 (asciiBytes "g") [] ⟨[], false, false⟩ true ⟨true, Except.error 3, Except.ok []⟩
    [] 3 rfl rfl (by decide)).1

/-- C7: a record text that fails to parse leaves the catalog fold unchanged at its
position - the built catalog equals the one built with that text absent - while extraction
itself (processChunks) never consults the parser, so scanning continues past the bad
record; and the whole fetch still returns Ok on any chunk stream.  Per-record parse
failures are logged (a pure warn) and never escalate. -/
theorem claim_C7 (excluded : List Bytes) (pre post : List Bytes) (bad : Bytes)
    (cs : List Bytes) (hbad : parsePackage bad = Except.error ()) :
    handleRecord excluded (buildCatalog excluded pre) bad = buildCatalog excluded pre ∧
    buildCatalog excluded (pre ++ bad :: post) = buildCatalog excluded (pre ++ post) ∧
    fetchAndParsePackages excluded (Except.ok cs) =
      Except.ok (buildCatalog excluded (processChunks cs).recs) :=
  ⟨handleRecord_bad excluded _ bad hbad,
   buildCatalog_skip_bad excluded pre post bad hbad, rfl⟩

/-- Witness: a malformed text between two good records drops out of the catalog. -/
theorem claim_C7_witness :
    buildCatalog [] ([asciiBytes "\x7b\"uuid\":\"a\",\"full_name\":\"m\"\x7d"] ++
        asciiBytes "nope" :: [asciiBytes "\x7b\"uuid\":\"c\",\"full_name\":\"d\"\x7d"]) =
      buildCatalog [] ([asciiBytes "\x7b\"uuid\":\"a\",\"full_name\":\"m\"\x7d"] ++
        [asciiBytes "\x7b\"uuid\":\"c\",\"full_name\":\"d\"\x7d"]) :=
  (claim_C7 [] [asciiBytes "\x7b\"uuid\":\"a\",\"full_name\":\"m\"\x7d"]
    [asciiBytes "\x7b\"uuid\":\"c\",\"full_name\":\"d\"\x7d"] (asciiBytes "nope") []
    (by decide)).2.1

/-- C8 (amended): an attempt that completes while is_first still holds writes in merge
mode - the store becomes the extend of the old collection with the fetched one, and every
key absent from the fetched collection keeps its record - and an attempt after is_first
has been cleared (which happens on success, not merely after the first iteration) writes
in replace mode: the store becomes exactly the fetched collection. -/
theorem claim_C8_amended (s : Thunderstore) (f : Bool) (slug : Bytes) (excluded : List Bytes)
    (primary extra : Except Nat (List Bytes)) (buf : Catalog) (k : Bytes)
    (hfet : s.is_fetching = false)
    (hbuf : fetchedBuffer slug excluded primary extra = Except.ok buf)
    (hk : k ∉ imKeys buf) :
    (loop_iter s f slug excluded primary extra).2.2 = Except.ok () ∧
    (f = true → (loop_iter s f slug excluded primary extra).1.packages =
        imExtend s.packages buf ∧
      imLookup (loop_iter s f slug excluded primary extra).1.packages k =
        imLookup s.packages k) ∧
    (f = false → (loop_iter s f slug excluded primary extra).1.packages = buf) := by
  rw [loop_iter_ok s f slug excluded primary extra buf hfet hbuf]
  refine ⟨rfl, fun hf => ?_, fun hf => ?_⟩
  · subst hf
    exact ⟨rfl, imExtend_lookup_not_mem buf k s.packages hk⟩
  · subst hf
    rfl

/-- C8 counterexample: the first fetch fails, so the second iteration - a later iteration,
which the claim says writes in replace mode - still carries is_first and merges: a stale
cached key survives alongside the newly fetched one, and the store does not equal the
fetched collection. -/
theorem claim_C8_counterexample :
    (runLoop (asciiBytes "g") [] c8initial true c8inputs).1 =
      [IterEvent.ran false, IterEvent.ran true] ∧
    fetchedBuffer (asciiBytes "g") [] (Except.ok [c8chunk]) (Except.ok []) =
      Except.ok [(asciiBytes "b", ⟨asciiBytes "b", asciiBytes "n"⟩)] ∧
    imKeys (runLoop (asciiBytes "g") [] c8initial true c8inputs).2.1.packages =
      [asciiBytes "old", asciiBytes "b"] ∧
    ¬(imKeys (runLoop (asciiBytes "g") [] c8initial true c8inputs).2.1.packages =
      imKeys [(asciiBytes "b", (⟨asciiBytes "b", asciiBytes "n"⟩ : Package))]) := by decide

/-- Witness: the replace clause of the amended statement at a concrete store. -/
theorem claim_C8_witness :
    (loop_iter ⟨[(asciiBytes "old", c8pkgOld)], false, false⟩ false (asciiBytes "g") []
      (Except.ok [c8chunk]) (Except.ok [])).1.packages =
      [(asciiBytes "b", (⟨asciiBytes "b", asciiBytes "n"⟩ : Package))] :=
  (claim_C8_amended ⟨[(asciiBytes "old", c8pkgOld)], false, false⟩ false (asciiBytes "g") []
    (Except.ok [c8chunk]) (Except.ok [])
    [(asciiBytes "b", (⟨asciiBytes "b", asciiBytes "n"⟩ : Package))] (asciiBytes "zz")
    rfl (by decide) (by decide)).2.2 rfl

/-- C9 (amended): after any chunk sequence the text buffer holds no complete delimiter -
at most one partial record - and the two buffers together never exceed the bytes received;
but the pending-byte buffer is bounded only by the response, not by the longest record
plus the largest chunk: a failed UTF-8 validation retains the entire accumulated buffer
(fetch.rs lines 153-155), so chunk boundaries that keep landing mid-character grow it with
the number of chunks (see the counterexample). -/
theorem claim_C9_amended (cs : List Bytes) :
    findDelim (processChunks cs).sb = none ∧
    (processChunks cs).bb.length + (processChunks cs).sb.length ≤ cs.flatten.length := by
  obtain ⟨D, hD, hvD, hrecs, hsb, hbb⟩ := processChunks_inv cs
  constructor
  · rw [hsb]
    exact drain_no_delim D
  · have h1 : (processChunks cs).sb.length ≤ D.length := by
      rw [hsb]
      exact drain_len_le D
    have h2 : D.length + (processChunks cs).bb.length = cs.flatten.length := by
      rw [← hD, List.length_append]
    omega

/-- C9 counterexample: a valid-UTF-8 input whose records and chunks are small, split so
every accumulated buffer ends mid-character; after the prefix before the final completing
chunk the extractor holds more bytes than the longest record of the whole response plus
the largest chunk - the claimed bound fails. -/
theorem claim_C9_counterexample :
    utf8Valid c9chunks.flatten = true ∧
    maxLen (drain c9chunks.flatten).1 + maxLen c9chunks <
      (processChunks c9chunks.dropLast).bb.length +
        (processChunks c9chunks.dropLast).sb.length := by decide

/-- C10: UTF-8 decoding can never fail the fetch.  fetch_and_parse_packages returns Ok on
every chunk stream; a chunk whose accumulated buffer fails validation is silently retained
while the loop moves on; and a stream that turns permanently invalid (here: a chunk
containing the byte 0xFF, which no UTF-8 character admits, so every later validation
fails too) contributes exactly the records extracted before that point. -/
theorem claim_C10 (excluded : List Bytes) (cs pre post : List Bytes) (c : Bytes)
    (s : ExtState) (hmem : 255 ∈ c) :
    fetchAndParsePackages excluded (Except.ok cs) =
      Except.ok (buildCatalog excluded (processChunks cs).recs) ∧
    (utf8Valid (s.bb ++ c) = false → processChunk s c = ⟨s.bb ++ c, s.sb, s.recs⟩) ∧
    (processChunks (pre ++ c :: post)).recs = (processChunks pre).recs :=
  ⟨rfl, fun h => processChunk_invalid s c h, processChunks_poison pre c post hmem⟩

/-- Witness: a poisoned chunk between two record chunks freezes the record list. -/
theorem claim_C10_witness :
    (processChunks ([asciiBytes "\x7b\"uuid\":\"a\",\"full_name\":\"m\"\x7d]\x7d,"] ++
        [255] :: [asciiBytes "\x7b\"uuid\":\"c\",\"full_name\":\"d\"\x7d]\x7d,"])).recs =
      (processChunks [asciiBytes "\x7b\"uuid\":\"a\",\"full_name\":\"m\"\x7d]\x7d,"]).recs :=
  (claim_C10 [] [] [asciiBytes "\x7b\"uuid\":\"a\",\"full_name\":\"m\"\x7d]\x7d,"]
    [asciiBytes "\x7b\"uuid\":\"c\",\"full_name\":\"d\"\x7d]\x7d,"] [255] ⟨[], [], []⟩
    (by decide)).2.2
